import Mathlib

/-!
Verification of the crawl/download pipeline of the `isric` repository
(`src/main.go` and the signal-handling variant `src/unnamed/part_000`).

The Go code is shallowly embedded: strings are `List Char`, the relevant
pieces of the Go standard library (`strings.Split`, `strings.Join`,
`path.Clean`, `path.Join`, the regexp calls on the two fixed patterns and a
fragment of `net/url.Parse`) are translated into executable Lean functions,
and the stateful orchestration (`handle`, `run`, channels, the `terminate`
signal) is modelled by explicit traces and outcome values.
-/

set_option autoImplicit false

namespace Isric

/-- Go strings are modelled as lists of characters. -/
abbrev Str := List Char

/-- Go `strings.Split(s, sep)` for a one-character separator: splits around
each occurrence of `sep`; the empty string yields `[""]`. -/
def splitOnChar (sep : Char) : Str → List Str
  | [] => [[]]
  | c :: rest =>
    match splitOnChar sep rest with
    | [] => [[]]
    | p :: ps => if c = sep then [] :: p :: ps else (c :: p) :: ps

/-- Go `strings.Join(parts, sep)` for a one-character separator. -/
def joinSep (sep : Char) : List Str → Str
  | [] => []
  | [s] => s
  | s :: rest => s ++ sep :: joinSep sep rest

/-- One pass of the stack-based segment processing of Go `path.Clean`
(documented semantics of the lazybuf loop): empty and `.` elements are
dropped, `..` pops a previous element when possible, is dropped at the root,
and is kept when an unrooted path cannot backtrack.  `acc` is the output
stack in reverse order. -/
def cleanLoop (rooted : Bool) : List Str → List Str → List Str
  | acc, [] => acc.reverse
  | acc, s :: rest =>
    if s = [] ∨ s = ['.'] then cleanLoop rooted acc rest
    else if s = ['.', '.'] then
      match acc with
      | [] => if rooted then cleanLoop rooted [] rest
              else cleanLoop rooted [['.', '.']] rest
      | t :: acc' => if t = ['.', '.'] then cleanLoop rooted (['.', '.'] :: acc) rest
                     else cleanLoop rooted acc' rest
    else cleanLoop rooted (s :: acc) rest

/-- Go `path.Clean`: lexical cleaning of a slash-separated path. -/
def pathClean (p : Str) : Str :=
  if p = [] then ['.']
  else
    let rooted := p.head? == some '/'
    let segs := cleanLoop rooted [] (splitOnChar '/' p)
    let out := joinSep '/' segs
    if rooted then '/' :: out
    else if out = [] then ['.'] else out

/-- Go `path.Join(a, b)`: empty elements are skipped, the rest are joined
with `/` and the result is cleaned; all-empty input yields the empty path. -/
def pathJoin (a b : Str) : Str :=
  if a = [] then (if b = [] then [] else pathClean b)
  else pathClean (a ++ '/' :: b)

/-- The literal token `tileSG-` of `buildLinkTemplates`. -/
def tileSG : Str := 't' :: 'i' :: 'l' :: 'e' :: 'S' :: 'G' :: '-' :: []

/-- One iteration of `buildLinkTemplates` (src/main.go:150, part_000:188):
split the page-range filter on `|`, write `tileSG-` and the part into the
builder, writing a `|` separator first whenever the builder is non-empty. -/
def buildTemplate (p : Str) : Str :=
  (splitOnChar '|' p).foldl
    (fun b part => (if b.length > 0 then b ++ ['|'] else b) ++ tileSG ++ part) []

/-- `buildLinkTemplates` (src/main.go:150, part_000:188): one alternation
pattern per page-range filter entry, in order. -/
def buildLinkTemplates (ranges : List Str) : List Str :=
  ranges.map buildTemplate

/-- The Link Template Builder as the specification describes it: every
`|`-delimited part prefixed with `tileSG-` and the parts rejoined with `|`.
Stated from the spec's words, to be compared with `buildLinkTemplates`. -/
def buildTemplateSpec (p : Str) : Str :=
  joinSep '|' ((splitOnChar '|' p).map (fun part => tileSG ++ part))

/-- Path computation of `createFile` (src/main.go:139, part_000:177):
`parts := strings.Split(urlPath, "/")`;
`dir := path.Join(targetDir, strings.Join(parts[len-3:len-1], "/"))`;
result `path.Join(dir, parts[len-1])`.  `none` models the slice-bounds
panic `parts[len-3:...]` raises when `parts` has fewer than 3 elements. -/
def createFilePath (targetDir urlPath : Str) : Option Str :=
  let parts := splitOnChar '/' urlPath
  if parts.length < 3 then none
  else
    let dir := pathJoin targetDir (joinSep '/' ((parts.drop (parts.length - 3)).take 2))
    some (pathJoin dir (parts.getLastD []))

/-- A parsed URL as the code uses it: `url.URL` restricted to the scheme,
host and path components, the only ones the pipeline reads or writes. -/
structure GoURL where
  scheme : Str
  host : Str
  path : Str
deriving DecidableEq

/-- Modelled fragment of Go `net/url.Parse` for the absolute URLs the config
supplies: parsing fails on ASCII control characters (as `Parse` does for any
URL) and, in this restricted model, on input without a `scheme://` part;
otherwise the input splits into scheme, host and path. -/
def urlParse (s : Str) : Option GoURL :=
  if s.any (fun c => c.toNat < 0x20 || c.toNat = 0x7f) then none
  else
    let scheme := s.takeWhile (fun c => c ≠ ':')
    let rest := s.drop scheme.length
    if scheme = [] then none
    else if (':' :: '/' :: '/' :: []).isPrefixOf rest then
      let hp := rest.drop 3
      let host := hp.takeWhile (fun c => c ≠ '/')
      some ⟨scheme, host, hp.drop host.length⟩
    else none

/-- The literal `href="` that opens both fixed regex patterns. -/
def hrefLit : Str := 'h' :: 'r' :: 'e' :: 'f' :: '=' :: '"' :: []

/-- The literal `.tif"` that closes the pattern `href="(.*\.tif)"`. -/
def tifClose : Str := '.' :: 't' :: 'i' :: 'f' :: '"' :: []

/-- Candidate end positions for the capture of `href="(.*\.tif)"` inside the
line region `L`: all `j` with `.tif"` at offset `j`. -/
def tifStops (L : Str) : List Nat :=
  (List.range (L.length + 1)).filter (fun j => tifClose.isPrefixOf (L.drop j))

/-- The region the regexp `.` can span from the current position: Go regexp
`.` does not match a newline, so a match is confined to one line. -/
def lineOf (s : Str) : Str := s.takeWhile (fun c => c ≠ '\n')

/-- All captures of Go `regexp.FindAllStringSubmatch` for the pattern
`href="(.*\.tif)"` (src/main.go:82, part_000:120), leftmost-first and
non-overlapping, with the GREEDY `.*` taking the LAST `.tif"` on the line
(`(List.getLastD ... )`); `fuel` bounds the scan and `s.length` suffices. -/
def tifCapturesFuel : Nat → Str → List Str
  | 0, _ => []
  | _ + 1, [] => []
  | fuel + 1, c :: rest =>
    if hrefLit.isPrefixOf (c :: rest) then
      let L := lineOf ((c :: rest).drop 6)
      match (tifStops L).getLast? with
      | some j => L.take (j + 4) :: tifCapturesFuel fuel ((c :: rest).drop (j + 11))
      | none => tifCapturesFuel fuel rest
    else tifCapturesFuel fuel rest

/-- Captures of the greedy pattern `href="(.*\.tif)"`, as the code runs it. -/
def tifCapturesGo (s : Str) : List Str := tifCapturesFuel s.length s

/-- The same scan but NON-GREEDY, stated from the specification's words
("any non-greedy sequence of characters before it"): the capture stops at
the FIRST `.tif"` on the line.  To be compared with `tifCapturesGo`. -/
def tifCapturesNonGreedyFuel : Nat → Str → List Str
  | 0, _ => []
  | _ + 1, [] => []
  | fuel + 1, c :: rest =>
    if hrefLit.isPrefixOf (c :: rest) then
      let L := lineOf ((c :: rest).drop 6)
      match (tifStops L).head? with
      | some j => L.take (j + 4) :: tifCapturesNonGreedyFuel fuel ((c :: rest).drop (j + 11))
      | none => tifCapturesNonGreedyFuel fuel rest
    else tifCapturesNonGreedyFuel fuel rest

/-- Non-greedy variant of the `.tif` capture scan (spec reading). -/
def tifCapturesNonGreedy (s : Str) : List Str := tifCapturesNonGreedyFuel s.length s

/-- First alternative of the link template that matches at `t` followed by
the closing `/"` of the pattern `href="(A|B|...)\/"`: Go regexp alternation
tries alternatives left to right. -/
def firstAltMatch (alts : List Str) (t : Str) : Option Str :=
  alts.find? (fun a => (a ++ '/' :: '"' :: []).isPrefixOf t)

/-- All captures of `regexp.FindAllStringSubmatch` for the pattern
`href="(<template>)\/"` built in `parseURLs` (src/main.go:99, part_000:137),
where the template is an alternation of the literal strings `alts`
(page-range parts carry no regex metacharacters); leftmost-first and
non-overlapping; `fuel` bounds the scan and `s.length` suffices. -/
def rangeCapturesFuel (alts : List Str) : Nat → Str → List Str
  | 0, _ => []
  | _ + 1, [] => []
  | fuel + 1, c :: rest =>
    if hrefLit.isPrefixOf (c :: rest) then
      match firstAltMatch alts ((c :: rest).drop 6) with
      | some a => a :: rangeCapturesFuel alts fuel ((c :: rest).drop (a.length + 8))
      | none => rangeCapturesFuel alts fuel rest
    else rangeCapturesFuel alts fuel rest

/-- Captures of one link-template pattern over a page body. -/
def rangeCapturesGo (alts : List Str) (s : Str) : List Str :=
  rangeCapturesFuel alts s.length s

/-- `parseURLs` as a list of the URLs sent on its channel (src/main.go:94,
part_000:132): for each built template in order, all matches of
`href="(<template>)\/"` in body order; each match keeps the page URL's
scheme and host and joins the captured segment onto its path, re-adding the
trailing slash. -/
def parseURLsList (pageURL : GoURL) (body : Str) (pageRanges : List Str) : List GoURL :=
  (buildLinkTemplates pageRanges).flatMap (fun tpl =>
    (rangeCapturesGo (splitOnChar '|' tpl) body).map (fun m =>
      { pageURL with path := pathJoin pageURL.path m ++ ['/'] }))

/-- `getTifUrls` as a list of the URLs sent on its channel (src/main.go:79,
part_000:117): all captures of `href="(.*\.tif)"` in body order; each match
keeps the page URL's scheme and host and joins the capture onto its path. -/
def getTifUrlsList (pageURL : GoURL) (body : Str) : List GoURL :=
  (tifCapturesGo body).map (fun m => { pageURL with path := pathJoin pageURL.path m })

/-- A Go channel as its single consumer observes it: the finite list of
values the producer goroutine sends, and whether the producer calls
`close` after the last send. -/
structure Chan where
  sent : List GoURL
  closedAfter : Bool
deriving DecidableEq

/-- A `for range` loop over a Go channel whose producer sends finitely many
values terminates exactly when the producer closes the channel; over an
unclosed channel the receive after the last value blocks forever. -/
def chanConsumerTerminates (c : Chan) : Bool := c.closedAfter

/-- `parseURLs` of src/main.go:94: the goroutine sends every match and then
calls `close(urlChan)` (src/main.go:108). -/
def parseURLsChanMain (pageURL : GoURL) (body : Str) (pageRanges : List Str) : Chan :=
  ⟨parseURLsList pageURL body pageRanges, true⟩

/-- `parseURLs` of src/unnamed/part_000:132: the goroutine sends every match
and returns without ever closing `urlsCh`. -/
def parseURLsChanSig (pageURL : GoURL) (body : Str) (pageRanges : List Str) : Chan :=
  ⟨parseURLsList pageURL body pageRanges, false⟩

/-- `getTifUrls` of src/main.go:79: sends every match, then `close(urlChan)`
(src/main.go:89). -/
def getTifUrlsChanMain (pageURL : GoURL) (body : Str) : Chan :=
  ⟨getTifUrlsList pageURL body, true⟩

/-- `getTifUrls` of src/unnamed/part_000:117: sends every match and returns
without ever closing `urlChan`. -/
def getTifUrlsChanSig (pageURL : GoURL) (body : Str) : Chan :=
  ⟨getTifUrlsList pageURL body, false⟩

/-- Result of one `download` call (src/main.go:122, part_000:160):
`fatal` models `log.Fatalf` / a panic, which terminate the whole process;
`err` a returned error, which the caller logs before continuing; `ok` a
completed copy. -/
inductive DLResult
  | fatal
  | err
  | ok
deriving DecidableEq

/-- Outcome of `createFile`'s `os.Stat`/`os.MkdirAll`/`os.Create` calls,
supplied as an oracle for the filesystem. -/
inductive CreateResult
  | createErr
  | created
deriving DecidableEq

/-- `download` (src/main.go:122, part_000:160), with the HTTP layer as the
oracle `fetch` (`none` = `request` fails) and the filesystem as `cres`:
a fetch failure runs `log.Fatalf` (process death, `.fatal`); `createFile`
on a URL path with fewer than three `/`-parts panics (`.fatal`); a
`createFile` error is returned to the caller (`.err`); otherwise the body
is copied into the file (`.ok`). -/
def downloadModel (targetDir : Str) (fetch : GoURL → Option Str)
    (cres : Str → CreateResult) (u : GoURL) : DLResult :=
  match fetch u with
  | none => .fatal
  | some _ =>
    match createFilePath targetDir u.path with
    | none => .fatal
    | some p =>
      match cres p with
      | .createErr => .err
      | .created => .ok

/-- Observable steps of `handle` in src/unnamed/part_000:80: a poll of the
shared `terminate` channel (with the value it observed), a sub-page fetch
(with its success flag) and a download attempt (with its result). -/
inductive Event
  | poll (observed : Bool)
  | fetchSub (u : GoURL) (ok : Bool)
  | download (u : GoURL) (r : DLResult)
deriving DecidableEq

/-- How a loop of `handle` ends: the list was exhausted, a poll observed the
cancellation signal (`handle` returns nil), or `log.Fatalf`/panic killed the
process. -/
inductive ExitKind
  | normal
  | cancelled
  | fatal
deriving DecidableEq

/-- Outcome of one `handle` call: `panicked` (nil-pointer dereference after
a failed `url.Parse`, src part_000:81-82), `jobFailed` (root fetch failed,
the error is returned and printed, part_000:84-85), `died` (`log.Fatalf` or
a panic further down killed the process), or `completed` (`handle` returned
nil, whether it ran to the end or observed cancellation). -/
inductive JobOutcome
  | panicked
  | jobFailed
  | died
  | completed
deriving DecidableEq

/-- The inner file loop of `handle` (part_000:101-111): for each file URL,
poll `terminate` (return nil if observed), then call `download`; a returned
error is logged and the loop continues.  `k` numbers the polls; the result
is the event trace, the next poll index and how the loop ended. -/
def loopFiles (dl : GoURL → DLResult) (sig : Nat → Bool) :
    Nat → List GoURL → List Event × Nat × ExitKind
  | k, [] => ([], k, .normal)
  | k, f :: rest =>
    if sig k then ([Event.poll true], k + 1, .cancelled)
    else
      let r := dl f
      if r = .fatal then ([Event.poll false, Event.download f r], k + 1, .fatal)
      else
        let t := loopFiles dl sig (k + 1) rest
        (Event.poll false :: Event.download f r :: t.1, t.2.1, t.2.2)

/-- The outer sub-page loop of `handle` (part_000:88-112): for each sub-page
URL received, poll `terminate` (return nil if observed), fetch the sub-page
(on failure log and continue with the next one), and run the file loop over
`getTifUrls` of its body. -/
def loopSubs (fetch : GoURL → Option Str) (dl : GoURL → DLResult) (sig : Nat → Bool) :
    Nat → List GoURL → List Event × Nat × ExitKind
  | k, [] => ([], k, .normal)
  | k, u :: rest =>
    if sig k then ([Event.poll true], k + 1, .cancelled)
    else
      match fetch u with
      | none =>
        let t := loopSubs fetch dl sig (k + 1) rest
        (Event.poll false :: Event.fetchSub u false :: t.1, t.2.1, t.2.2)
      | some body =>
        let tf := loopFiles dl sig (k + 1) (getTifUrlsList u body)
        if tf.2.2 = ExitKind.normal then
          let t := loopSubs fetch dl sig tf.2.1 rest
          (Event.poll false :: Event.fetchSub u true :: (tf.1 ++ t.1), t.2.1, t.2.2)
        else
          (Event.poll false :: Event.fetchSub u true :: tf.1, tf.2.1, tf.2.2)

/-- A configured job, `PageParam` of the Go code. -/
structure PageParam where
  name : Str
  url : Str
  pageRanges : List Str
deriving DecidableEq

/-- `handle` (part_000:80): parse the root URL discarding the error (a
failed parse leaves a nil pointer whose dereference panics), fetch the root
page (failure returns an error: the job fails and siblings are untouched),
then drain `parseURLs` through the two polled loops.  Returns the job
outcome and the event trace. -/
def handleModel (targetDir : Str) (fetch : GoURL → Option Str)
    (cres : Str → CreateResult) (sig : Nat → Bool) (params : PageParam) :
    JobOutcome × List Event :=
  match urlParse params.url with
  | none => (.panicked, [])
  | some base =>
    match fetch base with
    | none => (.jobFailed, [])
    | some body =>
      let t := loopSubs fetch (downloadModel targetDir fetch cres) sig 0
        (parseURLsList base body params.pageRanges)
      (if t.2.2 = ExitKind.fatal then .died else .completed, t.1)

/-- Result of the whole process: either some goroutine panicked or called
`log.Fatal` (the process dies, taking every job with it), or every job
finished and printed its own outcome. -/
inductive ProcResult
  | died
  | finished (outs : List JobOutcome)
deriving DecidableEq

/-- `run`/`main` (part_000:66, main.go:43): one goroutine per configured
page, no shared mutable state between jobs, all sharing one `terminate`
signal; a panic or `log.Fatal` in any goroutine terminates the process,
otherwise each job's outcome is independent of its siblings. -/
def runModel (targetDir : Str) (fetch : GoURL → Option Str)
    (cres : Str → CreateResult) (sig : Nat → Bool) (jobs : List PageParam) : ProcResult :=
  let outs := jobs.map (fun q => (handleModel targetDir fetch cres sig q).1)
  if outs.any (fun o => o = .panicked || o = .died) then .died else .finished outs

/-- The four characters `.tif`, the suffix every capture of the `.tif`
pattern ends with. -/
def tif4 : Str := '.' :: 't' :: 'i' :: 'f' :: []

/-- Shared concrete target directory for the evaluation scenarios. -/
def wTD : Str := "/out".data

/-- Filesystem oracle that always succeeds. -/
def wCresOk : Str → CreateResult := fun _ => CreateResult.created

/-- A `terminate` signal that is never activated. -/
def sigOff : Nat → Bool := fun _ => false

/-- Root URL of job A in the download-failure scenario. -/
def w1BaseA : GoURL := ⟨"http".data, "h".data, "/a".data⟩

/-- The one sub-page job A discovers. -/
def w1Sub : GoURL := ⟨"http".data, "h".data, "/a/tileSG-1/".data⟩

/-- The one tile file job A discovers; its fetch fails. -/
def w1Tif : GoURL := ⟨"http".data, "h".data, "/a/tileSG-1/x.tif".data⟩

/-- Root URL of the healthy sibling job B. -/
def w1BaseB : GoURL := ⟨"http".data, "h".data, "/b".data⟩

/-- HTTP oracle of the download-failure scenario: the tile file's fetch
fails, everything else succeeds. -/
def w1Fetch : GoURL → Option Str := fun u =>
  if u = w1Tif then none
  else if u = w1BaseA then some "<a href=\"tileSG-1/\">".data
  else if u = w1Sub then some "<a href=\"x.tif\">".data
  else if u = w1BaseB then some [] else none

/-- Job A: discovers one sub-page and one tile file. -/
def w1JobA : PageParam := ⟨"A".data, "http://h/a".data, ["1".data]⟩

/-- Job B: one healthy sibling job with nothing to discover. -/
def w1JobB : PageParam := ⟨"B".data, "http://h/b".data, []⟩

/-- A job whose configured URL contains a control character, which
`url.Parse` rejects. -/
def w6Bad : PageParam := ⟨"bad".data, "http://h/\n".data, []⟩

/-- A healthy sibling of `w6Bad`. -/
def w6Good : PageParam := ⟨"good".data, "http://h/b".data, []⟩

/-- HTTP oracle whose root fetch fails for `/a` but succeeds for `/b`. -/
def w6FetchFail : GoURL → Option Str := fun u => if u = w1BaseB then some [] else none

/-- A job whose root URL parses but whose root fetch fails under
`w6FetchFail`. -/
def w6JobF : PageParam := ⟨"f".data, "http://h/a".data, []⟩

/-- A `terminate` signal that is active from the start. -/
def sigOn : Nat → Bool := fun _ => true

/-- HTTP oracle where every fetch succeeds: job A's crawl discovers one
sub-page and downloads its one tile file. -/
def w7Fetch : GoURL → Option Str := fun u =>
  if u = w1BaseA then some "<a href=\"tileSG-1/\">".data
  else if u = w1Sub then some "<a href=\"x.tif\">".data
  else some []

/-- The second sub-page of the isolation scenario. -/
def w9S2 : GoURL := ⟨"http".data, "h".data, "/a/tileSG-2/".data⟩

/-- Root body of the isolation scenario: two sub-page links. -/
def w9Body : Str := "<a href=\"tileSG-1/\"> <a href=\"tileSG-2/\">".data

/-- HTTP oracle of the isolation scenario: the first sub-page's fetch fails,
the second succeeds with an empty body. -/
def w9Fetch : GoURL → Option Str := fun u =>
  if u = w1BaseA then some w9Body
  else if u = w1Sub then none
  else if u = w9S2 then some [] else none

/-- Job of the isolation scenario: two page ranges, two sub-pages. -/
def w9Job : PageParam := ⟨"C".data, "http://h/a".data, ["1".data, "2".data]⟩

/-- The sub-page fetch attempt an event records, if any. -/
def subAttempt : Event → Option GoURL
  | Event.fetchSub u _ => some u
  | _ => none

/-- Traces in which every action is immediately preceded by a poll that
observed `false`, and which are not terminated by an observed cancellation:
the shape `handle`'s loops produce until they observe the signal. -/
inductive PolledOpen : List Event → Prop
  | nil : PolledOpen []
  | fetch (u : GoURL) (ok : Bool) (rest : List Event) :
      PolledOpen rest → PolledOpen (Event.poll false :: Event.fetchSub u ok :: rest)
  | down (u : GoURL) (r : DLResult) (rest : List Event) :
      PolledOpen rest → PolledOpen (Event.poll false :: Event.download u r :: rest)

/-- A path segment that `path.Clean` passes through unchanged: non-empty,
slash-free and not one of the dot elements. -/
def PlainSeg (s : Str) : Prop :=
  s ≠ [] ∧ '/' ∉ s ∧ s ≠ ['.'] ∧ s ≠ ['.', '.']

instance (s : Str) : Decidable (PlainSeg s) := by
  unfold PlainSeg; infer_instance

theorem splitOnChar_ne_nil (sep : Char) (s : Str) : splitOnChar sep s ≠ [] := by
  cases s with
  | nil => simp [splitOnChar]
  | cons c rest =>
    simp only [splitOnChar]
    rcases h : splitOnChar sep rest with _ | ⟨p, ps⟩
    · simp
    · by_cases hc : c = sep <;> simp [hc]

theorem splitOnChar_no_sep (sep : Char) (p : Str) (hp : sep ∉ p) :
    splitOnChar sep p = [p] := by
  induction p with
  | nil => rfl
  | cons c rest ih =>
    have hc : c ≠ sep := fun h => hp (h ▸ List.mem_cons_self c rest)
    have hrest : sep ∉ rest := fun h => hp (List.mem_cons_of_mem c h)
    simp only [splitOnChar, ih hrest, if_neg hc]

theorem splitOnChar_cons_sep (sep : Char) (p l : Str) (hp : sep ∉ p) :
    splitOnChar sep (p ++ sep :: l) = p :: splitOnChar sep l := by
  induction p with
  | nil =>
    simp only [List.nil_append, splitOnChar]
    rcases h : splitOnChar sep l with _ | ⟨q, qs⟩
    · exact absurd h (splitOnChar_ne_nil sep l)
    · simp
  | cons c rest ih =>
    have hc : c ≠ sep := fun h => hp (h ▸ List.mem_cons_self c rest)
    have hrest : sep ∉ rest := fun h => hp (List.mem_cons_of_mem c h)
    have key : splitOnChar sep (List.append rest (sep :: l)) = rest :: splitOnChar sep l :=
      ih hrest
    simp only [List.cons_append, splitOnChar, key]
    simp [hc]

theorem splitOnChar_joinSep (sep : Char) :
    ∀ ps : List Str, ps ≠ [] → (∀ p ∈ ps, sep ∉ p) →
      splitOnChar sep (joinSep sep ps) = ps := by
  intro ps
  induction ps with
  | nil => intro h; exact absurd rfl h
  | cons p rest ih =>
    intro _ hmem
    cases rest with
    | nil => exact splitOnChar_no_sep sep p (hmem p (List.mem_cons_self p []))
    | cons q rest' =>
      have hp : sep ∉ p := hmem p (List.mem_cons_self p _)
      have hrest : ∀ r ∈ q :: rest', sep ∉ r := fun r hr => hmem r (List.mem_cons_of_mem p hr)
      show splitOnChar sep (p ++ sep :: joinSep sep (q :: rest')) = p :: q :: rest'
      rw [splitOnChar_cons_sep sep p _ hp, ih (by simp) hrest]

theorem joinSep_append (sep : Char) :
    ∀ xs ys : List Str, xs ≠ [] → ys ≠ [] →
      joinSep sep (xs ++ ys) = joinSep sep xs ++ sep :: joinSep sep ys := by
  intro xs
  induction xs with
  | nil => intro ys h; exact absurd rfl h
  | cons x rest ih =>
    intro ys _ hys
    cases rest with
    | nil =>
      cases ys with
      | nil => exact absurd rfl hys
      | cons y ys' => rfl
    | cons x' rest' =>
      show joinSep sep (x :: (x' :: rest' ++ ys)) = _
      have h1 : x' :: rest' ++ ys ≠ [] := by simp
      have step : ∀ l : List Str, l ≠ [] → joinSep sep (x :: l) = x ++ sep :: joinSep sep l := by
        intro l hl; cases l with
        | nil => exact absurd rfl hl
        | cons a b => rfl
      rw [step _ h1, ih ys (by simp) hys, step (x' :: rest') (by simp)]
      simp

theorem joinSep_sep_cons (sep : Char) (x y : Str) (L : List Str) :
    joinSep sep ((x ++ sep :: y) :: L) = x ++ sep :: joinSep sep (y :: L) := by
  cases L with
  | nil => rfl
  | cons z L' =>
    show (x ++ sep :: y) ++ sep :: joinSep sep (z :: L') = _
    rw [List.append_assoc]
    rfl

theorem cleanLoop_plain (rooted : Bool) :
    ∀ (segs : List Str) (acc : List Str),
      (∀ s ∈ segs, s ≠ ['.'] ∧ s ≠ ['.', '.']) →
      cleanLoop rooted acc segs = acc.reverse ++ segs.filter (fun s => !s.isEmpty) := by
  intro segs
  induction segs with
  | nil => intro acc _; simp [cleanLoop]
  | cons s rest ih =>
    intro acc hmem
    have hs := hmem s (List.mem_cons_self s rest)
    have hrest : ∀ t ∈ rest, t ≠ ['.'] ∧ t ≠ ['.', '.'] :=
      fun t ht => hmem t (List.mem_cons_of_mem s ht)
    by_cases hnil : s = []
    · subst hnil
      simp only [cleanLoop, if_pos (Or.inl rfl)]
      rw [ih acc hrest]
      simp
    · have hdot : ¬(s = [] ∨ s = ['.']) := by
        rintro (h | h)
        · exact hnil h
        · exact hs.1 h
      simp only [cleanLoop, if_neg hdot, if_neg hs.2]
      rw [ih (s :: acc) hrest]
      simp [hnil]

theorem pathClean_rooted_parts (ps : List Str) (hne : ps ≠ [])
    (hmem : ∀ s ∈ ps, '/' ∉ s ∧ s ≠ ['.'] ∧ s ≠ ['.', '.']) :
    pathClean ('/' :: joinSep '/' ps) = '/' :: joinSep '/' (ps.filter (fun s => !s.isEmpty)) := by
  have hsplit : splitOnChar '/' ('/' :: joinSep '/' ps) = [] :: ps := by
    have : ('/' : Char) :: joinSep '/' ps = [] ++ '/' :: joinSep '/' ps := rfl
    rw [this, splitOnChar_cons_sep '/' [] _ (by simp),
      splitOnChar_joinSep '/' ps hne (fun p hp => (hmem p hp).1)]
  have hclean : cleanLoop true [] ([] :: ps) = ps.filter (fun s => !s.isEmpty) := by
    have h0 : cleanLoop true ([] : List Str) ([] :: ps) = cleanLoop true [] ps := by
      simp [cleanLoop]
    rw [h0, cleanLoop_plain true ps [] (fun s hs => (hmem s hs).2)]
    simp
  have hne2 : ('/' : Char) :: joinSep '/' ps ≠ [] := by simp
  have hrooted : (('/' :: joinSep '/' ps).head? == some '/') = true := by simp
  simp only [pathClean, if_neg hne2, hsplit, hrooted]
  rw [if_pos trivial, hclean]

theorem joinSep_filter_of_plain (ps : List Str)
    (h : ∀ s ∈ ps, s ≠ []) : ps.filter (fun s => !s.isEmpty) = ps := by
  rw [List.filter_eq_self]
  intro s hs
  simpa [List.isEmpty_iff] using h s hs

theorem pathJoin_rooted_plain (tsegs : List Str) (htn : tsegs ≠ [])
    (ht : ∀ s ∈ tsegs, PlainSeg s) (b : Str) (bsegs : List Str) (hbn : bsegs ≠ [])
    (hb : ∀ s ∈ bsegs, PlainSeg s) (hjoin : b = joinSep '/' bsegs) :
    pathJoin ('/' :: joinSep '/' tsegs) b = '/' :: joinSep '/' (tsegs ++ bsegs) := by
  subst hjoin
  have hne : ('/' : Char) :: joinSep '/' tsegs ≠ [] := by simp
  simp only [pathJoin, if_neg hne]
  have hshape : ('/' :: joinSep '/' tsegs) ++ '/' :: joinSep '/' bsegs
      = '/' :: joinSep '/' (tsegs ++ bsegs) := by
    rw [joinSep_append '/' tsegs bsegs htn hbn]
    rfl
  rw [hshape]
  have hall : ∀ s ∈ tsegs ++ bsegs, '/' ∉ s ∧ s ≠ ['.'] ∧ s ≠ ['.', '.'] := by
    intro s hs
    rcases List.mem_append.1 hs with h | h
    · exact ⟨(ht s h).2.1, (ht s h).2.2.1, (ht s h).2.2.2⟩
    · exact ⟨(hb s h).2.1, (hb s h).2.2.1, (hb s h).2.2.2⟩
  rw [pathClean_rooted_parts (tsegs ++ bsegs) (by simp [htn]) hall,
    joinSep_filter_of_plain _ (fun s hs => by
      rcases List.mem_append.1 hs with h | h
      · exact (ht s h).1
      · exact (hb s h).1)]

theorem buildTemplate_foldl (acc : Str) (hacc : acc ≠ []) :
    ∀ parts : List Str,
      parts.foldl (fun b part => (if b.length > 0 then b ++ ['|'] else b) ++ tileSG ++ part) acc
        = joinSep '|' (acc :: parts.map (fun part => tileSG ++ part)) := by
  intro parts
  induction parts generalizing acc with
  | nil => simp [joinSep]
  | cons p rest ih =>
    have hlen : acc.length > 0 := List.length_pos.2 hacc
    have hstep : (if acc.length > 0 then acc ++ ['|'] else acc) ++ tileSG ++ p
        = acc ++ '|' :: (tileSG ++ p) := by
      rw [if_pos hlen]; simp
    simp only [List.foldl_cons, hstep]
    rw [ih (acc ++ '|' :: (tileSG ++ p)) (by simp), List.map_cons,
      joinSep_sep_cons '|' acc (tileSG ++ p) (rest.map (fun part => tileSG ++ part))]
    rfl

theorem buildTemplate_eq_spec (p : Str) : buildTemplate p = buildTemplateSpec p := by
  unfold buildTemplate buildTemplateSpec
  rcases h : splitOnChar '|' p with _ | ⟨q, rest⟩
  · exact absurd h (splitOnChar_ne_nil '|' p)
  · have hstep : (fun (b : Str) part =>
        (if b.length > 0 then b ++ ['|'] else b) ++ tileSG ++ part) [] q = tileSG ++ q := by
      simp
    simp only [List.foldl_cons, hstep]
    rw [buildTemplate_foldl (tileSG ++ q) (by simp [tileSG]) rest, List.map_cons]

/-- C3: `buildLinkTemplates` returns one output per input, in order, each
equal to the input with every `|`-delimited part prefixed by `tileSG-` and
the parts rejoined with `|`; the empty input yields the empty output and no
error condition exists (the function is total). -/
theorem buildLinkTemplates_correct (ranges : List Str) :
    buildLinkTemplates ranges = ranges.map buildTemplateSpec
    ∧ (buildLinkTemplates ranges).length = ranges.length
    ∧ buildLinkTemplates [] = [] := by
  refine ⟨?_, by simp [buildLinkTemplates], rfl⟩
  unfold buildLinkTemplates
  exact List.map_congr_left (fun p _ => buildTemplate_eq_spec p)

/-- C10: `createFile` is not total: on a URL path splitting into fewer than
three `/`-parts (such as `a.tif`) it panics with an out-of-range slice
index instead of returning an error (`none` in the model), and it is
panic-free exactly under the precondition of at least three parts. -/
theorem createFilePath_panic_boundary :
    createFilePath "/out".data "a.tif".data = none
    ∧ ∀ targetDir urlPath : Str,
        3 ≤ (splitOnChar '/' urlPath).length →
        (createFilePath targetDir urlPath).isSome = true := by
  refine ⟨by decide, ?_⟩
  intro targetDir urlPath h3
  unfold createFilePath
  simp only [if_neg (Nat.not_lt.2 h3), Option.isSome_some]

/-- Witness for C10 at a concrete three-segment path. -/
theorem createFilePath_panic_boundary_witness :
    3 ≤ (splitOnChar '/' "/a/b".data).length
    ∧ (createFilePath "/out".data "/a/b".data).isSome = true :=
  ⟨by decide, createFilePath_panic_boundary.2 "/out".data "/a/b".data (by decide)⟩

/-- C4: for a URL path with at least three segments the Target File Path is
deterministic: the two segments before the last become a directory path
appended to `targetDir` and the last segment becomes the file name; in
particular `/archive/vol1/p3/image1.tif` with `targetDir = /out` maps to
`/out/vol1/p3/image1.tif`. -/
theorem createFilePath_deterministic (tsegs pre : List Str) (a b c : Str)
    (htn : tsegs ≠ []) (ht : ∀ s ∈ tsegs, PlainSeg s) (hpre : ∀ s ∈ pre, '/' ∉ s)
    (ha : PlainSeg a) (hb : PlainSeg b) (hc : PlainSeg c) :
    createFilePath ('/' :: joinSep '/' tsegs) (joinSep '/' (pre ++ [a, b, c]))
        = some ('/' :: joinSep '/' (tsegs ++ [a, b, c]))
    ∧ createFilePath "/out".data "/archive/vol1/p3/image1.tif".data
        = some "/out/vol1/p3/image1.tif".data := by
  refine ⟨?_, by decide⟩
  have habc : ∀ s ∈ ([a, b, c] : List Str), PlainSeg s := by
    intro s hs
    simp only [List.mem_cons, List.not_mem_nil, or_false] at hs
    rcases hs with h | h | h <;> subst h
    exacts [ha, hb, hc]
  have hab : ∀ s ∈ ([a, b] : List Str), PlainSeg s := by
    intro s hs
    simp only [List.mem_cons, List.not_mem_nil, or_false] at hs
    rcases hs with h | h <;> subst h
    exacts [ha, hb]
  have hparts : splitOnChar '/' (joinSep '/' (pre ++ [a, b, c])) = pre ++ [a, b, c] := by
    refine splitOnChar_joinSep '/' _ (by simp) ?_
    intro p hp
    rcases List.mem_append.1 hp with h | h
    · exact hpre p h
    · exact (habc p h).2.1
  have hlen : (pre ++ [a, b, c]).length = pre.length + 3 := by simp
  have hnot : ¬ (pre ++ [a, b, c]).length < 3 := by omega
  have hdrop : (pre ++ [a, b, c]).drop ((pre ++ [a, b, c]).length - 3) = [a, b, c] := by
    rw [hlen]
    have h3 : pre.length + 3 - 3 = pre.length := by omega
    rw [h3]
    exact List.drop_left pre [a, b, c]
  have htake : ([a, b, c] : List Str).take 2 = [a, b] := rfl
  have hlast : (pre ++ [a, b, c]).getLastD [] = c := by
    have hsplit2 : pre ++ [a, b, c] = (pre ++ [a, b]) ++ [c] := by simp
    rw [hsplit2]; simp
  have hdir : pathJoin ('/' :: joinSep '/' tsegs) (joinSep '/' [a, b])
      = '/' :: joinSep '/' (tsegs ++ [a, b]) :=
    pathJoin_rooted_plain tsegs htn ht _ [a, b] (by simp) hab rfl
  have hfile : pathJoin ('/' :: joinSep '/' (tsegs ++ [a, b])) c
      = '/' :: joinSep '/' ((tsegs ++ [a, b]) ++ [c]) :=
    pathJoin_rooted_plain (tsegs ++ [a, b]) (by simp [htn])
      (by intro s hs
          rcases List.mem_append.1 hs with h | h
          · exact ht s h
          · exact hab s h)
      c [c] (by simp)
      (by intro s hs
          simp only [List.mem_cons, List.not_mem_nil, or_false] at hs
          subst hs; exact hc)
      rfl
  simp only [createFilePath, hparts]
  rw [if_neg hnot, hdrop, htake, hlast, hdir, hfile]
  simp

/-- Witness for C4 at the specification's example. -/
theorem createFilePath_deterministic_witness :
    createFilePath ('/' :: joinSep '/' ["out".data])
        (joinSep '/' (["".data, "archive".data] ++ ["vol1".data, "p3".data, "image1.tif".data]))
      = some ('/' :: joinSep '/' (["out".data] ++ ["vol1".data, "p3".data, "image1.tif".data])) :=
  (createFilePath_deterministic ["out".data] ["".data, "archive".data]
    "vol1".data "p3".data "image1.tif".data (by decide) (by decide) (by decide)
    (by decide) (by decide) (by decide)).1

theorem take_tif_of_stop (L : Str) (j : Nat) (h : tifClose.isPrefixOf (L.drop j) = true) :
    L.take (j + 4) = L.take j ++ tif4 := by
  have hp : tifClose <+: L.drop j := List.isPrefixOf_iff_prefix.1 h
  obtain ⟨t, ht⟩ := hp
  rw [List.take_add]
  congr 1
  rw [← ht]
  rfl

theorem tifCapturesFuel_suffix :
    ∀ (fuel : Nat) (s m : Str), m ∈ tifCapturesFuel fuel s → ∃ p, m = p ++ tif4 := by
  intro fuel
  induction fuel with
  | zero => intro s m h; simp [tifCapturesFuel] at h
  | succ n ih =>
    intro s m h
    cases s with
    | nil => simp [tifCapturesFuel] at h
    | cons c rest =>
      simp only [tifCapturesFuel] at h
      split at h
      · split at h
        next j hj =>
          rcases List.mem_cons.1 h with hm | hm
          · have hjmem : j ∈ tifStops (lineOf ((c :: rest).drop 6)) :=
              List.mem_of_mem_getLast? hj
            have hstop := (List.mem_filter.1 hjmem).2
            exact ⟨_, hm.trans (take_tif_of_stop _ j hstop)⟩
          · exact ih _ _ hm
        next => exact ih _ _ h
      · exact ih _ _ h

/-- C5, corrected: on the specification's example body the Tile-file
Discoverer yields exactly one URL, ending in `image1.tif`, joined onto the
sub-page path, and the non-matching href is ignored; moreover every capture
of the pattern ends in the literal `.tif`.  (The mechanism differs from the
claim: the `.*` is greedy, see `tif_greedy_counterexample`.) -/
theorem getTifUrls_amended :
    getTifUrlsList ⟨"http".data, "h".data, "/v".data⟩
        "<a href=\"image1.tif\"> <a href=\"notes.txt\">".data
      = [⟨"http".data, "h".data, "/v/image1.tif".data⟩]
    ∧ ∀ body m, m ∈ tifCapturesGo body → ∃ p, m = p ++ tif4 :=
  ⟨by decide, fun _ m h => tifCapturesFuel_suffix _ _ m h⟩

/-- Witness for C5's amended universal part at a concrete body. -/
theorem getTifUrls_amended_witness :
    "image1.tif".data ∈ tifCapturesGo "<a href=\"image1.tif\">".data
    ∧ ∃ p, "image1.tif".data = p ++ tif4 :=
  ⟨by decide, getTifUrls_amended.2 "<a href=\"image1.tif\">".data "image1.tif".data (by decide)⟩

/-- C5 counterexample: the code's `.*` is greedy, not non-greedy.  On a body
whose one line holds two `.tif` hrefs the code produces a single capture
spanning both (it even contains a `"`), where the claimed non-greedy match
of each href value would produce two clean captures. -/
theorem tif_greedy_counterexample :
    tifCapturesGo "href=\"a.tif\" href=\"b.tif\"".data = ["a.tif\" href=\"b.tif".data]
    ∧ tifCapturesNonGreedy "href=\"a.tif\" href=\"b.tif\"".data
        = ["a.tif".data, "b.tif".data]
    ∧ tifCapturesGo "href=\"a.tif\" href=\"b.tif\"".data
        ≠ tifCapturesNonGreedy "href=\"a.tif\" href=\"b.tif\"".data
    ∧ '"' ∈ "a.tif\" href=\"b.tif".data := by decide

/-- C8: every URL emitted by `parseURLs` keeps the root URL's scheme and
host, and every URL emitted by `getTifUrls` from such a sub-page keeps them
too: discovery only extends the path. -/
theorem discovery_same_origin (base : GoURL) (body : Str) (ranges : List Str) :
    (∀ u ∈ parseURLsList base body ranges, u.scheme = base.scheme ∧ u.host = base.host)
    ∧ (∀ u ∈ parseURLsList base body ranges, ∀ body2 : Str,
        ∀ v ∈ getTifUrlsList u body2, v.scheme = base.scheme ∧ v.host = base.host) := by
  have hp : ∀ u ∈ parseURLsList base body ranges,
      u.scheme = base.scheme ∧ u.host = base.host := by
    intro u hu
    simp only [parseURLsList, List.mem_flatMap] at hu
    obtain ⟨tpl, _, hu⟩ := hu
    simp only [List.mem_map] at hu
    obtain ⟨m, _, rfl⟩ := hu
    exact ⟨rfl, rfl⟩
  refine ⟨hp, ?_⟩
  intro u hu body2 v hv
  simp only [getTifUrlsList, List.mem_map] at hv
  obtain ⟨m, _, rfl⟩ := hv
  exact hp u hu

/-- Witness for C8 on a concrete discovery chain. -/
theorem discovery_same_origin_witness :
    ((⟨"http".data, "h".data, "/a/tileSG-1/".data⟩ : GoURL)
        ∈ parseURLsList ⟨"http".data, "h".data, "/a".data⟩
            "<a href=\"tileSG-1/\">".data ["1".data])
    ∧ ("http".data = "http".data ∧ "h".data = "h".data) :=
  ⟨by decide,
   (discovery_same_origin ⟨"http".data, "h".data, "/a".data⟩
      "<a href=\"tileSG-1/\">".data ["1".data]).1
      ⟨"http".data, "h".data, "/a/tileSG-1/".data⟩ (by decide)⟩

/-- C2: the `for range` consumer terminates for the `main.go` discoverers,
whose producers close their channels after the last match, and blocks
forever for the `part_000` discoverers, whose producers never close them. -/
theorem discovery_channel_close (base u : GoURL) (body body2 : Str) (ranges : List Str) :
    chanConsumerTerminates (parseURLsChanMain base body ranges) = true
    ∧ chanConsumerTerminates (getTifUrlsChanMain u body2) = true
    ∧ chanConsumerTerminates (parseURLsChanSig base body ranges) = false
    ∧ chanConsumerTerminates (getTifUrlsChanSig u body2) = false :=
  ⟨rfl, rfl, rfl, rfl⟩

/-- C1 refutation (code bug): a failed HTTP fetch inside `download` runs
`log.Fatalf`, killing the whole process: the job that hit it is reported
`died`, and `runModel` of the job together with a healthy sibling (which on
its own completes) dies as well, instead of isolating the failure to the
one file. -/
theorem download_fetch_failure_fatal :
    w1Fetch w1Tif = none
    ∧ downloadModel wTD w1Fetch wCresOk w1Tif = DLResult.fatal
    ∧ (handleModel wTD w1Fetch wCresOk sigOff w1JobA).1 = JobOutcome.died
    ∧ (handleModel wTD w1Fetch wCresOk sigOff w1JobB).1 = JobOutcome.completed
    ∧ runModel wTD w1Fetch wCresOk sigOff [w1JobA, w1JobB] = ProcResult.died := by
  decide

/-- C6 counterexample: a job whose root URL fails `url.Parse` does not
report `jobFailed` as its own outcome; the discarded error leaves a nil
pointer whose dereference panics and crashes the whole process, killing a
sibling that on its own completes. -/
theorem parse_failure_crashes_process :
    urlParse w6Bad.url = none
    ∧ handleModel wTD w1Fetch wCresOk sigOff w6Bad = (JobOutcome.panicked, [])
    ∧ (handleModel wTD w1Fetch wCresOk sigOff w6Good).1 = JobOutcome.completed
    ∧ runModel wTD w1Fetch wCresOk sigOff [w6Bad, w6Good] = ProcResult.died
    ∧ handleModel wTD w1Fetch wCresOk sigOff w6Bad ≠ (JobOutcome.jobFailed, []) := by
  decide

/-- C6, corrected: a root page FETCH failure is job-scoped: the job reports
`jobFailed` and, whenever no job panics or dies, the process finishes with
every job's own outcome, so siblings are unaffected.  (A root URL PARSE
failure, by contrast, panics: see `parse_failure_crashes_process`.) -/
theorem root_fetch_failure_job_scoped (td : Str) (fetch : GoURL → Option Str)
    (cres : Str → CreateResult) (sig : Nat → Bool) :
    (∀ (params : PageParam) (base : GoURL), urlParse params.url = some base →
        fetch base = none →
        handleModel td fetch cres sig params = (JobOutcome.jobFailed, []))
    ∧ (∀ jobs : List PageParam,
        (∀ q ∈ jobs, (handleModel td fetch cres sig q).1 ≠ JobOutcome.panicked
            ∧ (handleModel td fetch cres sig q).1 ≠ JobOutcome.died) →
        runModel td fetch cres sig jobs
          = ProcResult.finished (jobs.map fun q => (handleModel td fetch cres sig q).1)) := by
  constructor
  · intro params base hparse hfetch
    simp only [handleModel, hparse, hfetch]
  · intro jobs hq
    unfold runModel
    have hany : (jobs.map fun q => (handleModel td fetch cres sig q).1).any
        (fun o => o = JobOutcome.panicked || o = JobOutcome.died) = false := by
      rw [List.any_eq_false]
      intro o ho
      simp only [List.mem_map] at ho
      obtain ⟨q, hqm, rfl⟩ := ho
      have hout := hq q hqm
      simp [hout.1, hout.2]
    simp only [hany, Bool.false_eq_true, if_false]

/-- Witness for C6's amended claim: a root-fetch-failing job next to a
healthy sibling. -/
theorem root_fetch_failure_job_scoped_witness :
    handleModel wTD w6FetchFail wCresOk sigOff w6JobF = (JobOutcome.jobFailed, [])
    ∧ runModel wTD w6FetchFail wCresOk sigOff [w6JobF, w6Good]
        = ProcResult.finished ([w6JobF, w6Good].map
            fun q => (handleModel wTD w6FetchFail wCresOk sigOff q).1) :=
  ⟨(root_fetch_failure_job_scoped wTD w6FetchFail wCresOk sigOff).1 w6JobF w1BaseA
      (by decide) (by decide),
   (root_fetch_failure_job_scoped wTD w6FetchFail wCresOk sigOff).2 [w6JobF, w6Good]
      (by decide)⟩

theorem polledOpen_append {a b : List Event} (ha : PolledOpen a) (hb : PolledOpen b) :
    PolledOpen (a ++ b) := by
  induction ha with
  | nil => exact hb
  | fetch u ok rest _ ih => exact PolledOpen.fetch u ok _ ih
  | down u r rest _ ih => exact PolledOpen.down u r _ ih

theorem polledOpen_no_poll_true {l : List Event} (h : PolledOpen l) :
    Event.poll true ∉ l := by
  induction h with
  | nil => simp
  | fetch u ok rest _ ih =>
    intro hmem
    rcases List.mem_cons.1 hmem with h1 | h2
    · simp at h1
    · rcases List.mem_cons.1 h2 with h3 | h4
      · simp at h3
      · exact ih h4
  | down u r rest _ ih =>
    intro hmem
    rcases List.mem_cons.1 hmem with h1 | h2
    · simp at h1
    · rcases List.mem_cons.1 h2 with h3 | h4
      · simp at h3
      · exact ih h4

theorem loopFiles_polled (dl : GoURL → DLResult) (sig : Nat → Bool) :
    ∀ (fs : List GoURL) (k : Nat),
      ((loopFiles dl sig k fs).2.2 = ExitKind.cancelled →
        ∃ o, PolledOpen o ∧ (loopFiles dl sig k fs).1 = o ++ [Event.poll true])
      ∧ ((loopFiles dl sig k fs).2.2 ≠ ExitKind.cancelled →
        PolledOpen (loopFiles dl sig k fs).1) := by
  intro fs
  induction fs with
  | nil =>
    intro k
    constructor
    · intro h; simp [loopFiles] at h
    · intro _; exact PolledOpen.nil
  | cons f rest ih =>
    intro k
    by_cases hs : sig k = true
    · constructor
      · intro _
        exact ⟨[], PolledOpen.nil, by simp [loopFiles, hs]⟩
      · intro h
        exact absurd (show (loopFiles dl sig k (f :: rest)).2.2 = ExitKind.cancelled by
          simp [loopFiles, hs]) h
    · by_cases hdl : dl f = DLResult.fatal
      · have hexit : (loopFiles dl sig k (f :: rest)).2.2 = ExitKind.fatal := by
          simp [loopFiles, hs, hdl]
        have htrace : (loopFiles dl sig k (f :: rest)).1
            = [Event.poll false, Event.download f DLResult.fatal] := by
          simp [loopFiles, hs, hdl]
        constructor
        · intro h; rw [hexit] at h; simp at h
        · intro _
          rw [htrace]
          exact PolledOpen.down f DLResult.fatal [] PolledOpen.nil
      · have hstep : loopFiles dl sig k (f :: rest)
            = (Event.poll false :: Event.download f (dl f) :: (loopFiles dl sig (k + 1) rest).1,
               (loopFiles dl sig (k + 1) rest).2.1, (loopFiles dl sig (k + 1) rest).2.2) := by
          simp [loopFiles, hs, hdl]
        rw [hstep]
        have hr := ih (k + 1)
        constructor
        · intro h
          obtain ⟨o, ho, htr⟩ := hr.1 h
          exact ⟨Event.poll false :: Event.download f (dl f) :: o,
            PolledOpen.down _ _ _ ho, by simp [htr]⟩
        · intro h
          exact PolledOpen.down _ _ _ (hr.2 h)

theorem loopSubs_polled (fetch : GoURL → Option Str) (dl : GoURL → DLResult)
    (sig : Nat → Bool) :
    ∀ (subs : List GoURL) (k : Nat),
      ((loopSubs fetch dl sig k subs).2.2 = ExitKind.cancelled →
        ∃ o, PolledOpen o ∧ (loopSubs fetch dl sig k subs).1 = o ++ [Event.poll true])
      ∧ ((loopSubs fetch dl sig k subs).2.2 ≠ ExitKind.cancelled →
        PolledOpen (loopSubs fetch dl sig k subs).1) := by
  intro subs
  induction subs with
  | nil =>
    intro k
    constructor
    · intro h; simp [loopSubs] at h
    · intro _; exact PolledOpen.nil
  | cons u rest ih =>
    intro k
    by_cases hs : sig k = true
    · constructor
      · intro _
        exact ⟨[], PolledOpen.nil, by simp [loopSubs, hs]⟩
      · intro h
        exact absurd (show (loopSubs fetch dl sig k (u :: rest)).2.2 = ExitKind.cancelled by
          simp [loopSubs, hs]) h
    · rcases hu : fetch u with _ | body
      · have hstep : loopSubs fetch dl sig k (u :: rest)
            = (Event.poll false :: Event.fetchSub u false ::
                (loopSubs fetch dl sig (k + 1) rest).1,
               (loopSubs fetch dl sig (k + 1) rest).2.1,
               (loopSubs fetch dl sig (k + 1) rest).2.2) := by
          simp [loopSubs, hs, hu]
        rw [hstep]
        have hr := ih (k + 1)
        constructor
        · intro h
          obtain ⟨o, ho, htr⟩ := hr.1 h
          exact ⟨Event.poll false :: Event.fetchSub u false :: o,
            PolledOpen.fetch _ _ _ ho, by simp [htr]⟩
        · intro h
          exact PolledOpen.fetch _ _ _ (hr.2 h)
      · by_cases hf : (loopFiles dl sig (k + 1) (getTifUrlsList u body)).2.2 = ExitKind.normal
        · have hstep : loopSubs fetch dl sig k (u :: rest)
              = (Event.poll false :: Event.fetchSub u true ::
                  ((loopFiles dl sig (k + 1) (getTifUrlsList u body)).1
                    ++ (loopSubs fetch dl sig
                          (loopFiles dl sig (k + 1) (getTifUrlsList u body)).2.1 rest).1),
                 (loopSubs fetch dl sig
                    (loopFiles dl sig (k + 1) (getTifUrlsList u body)).2.1 rest).2.1,
                 (loopSubs fetch dl sig
                    (loopFiles dl sig (k + 1) (getTifUrlsList u body)).2.1 rest).2.2) := by
            simp [loopSubs, hs, hu, hf]
          rw [hstep]
          have hfo : PolledOpen (loopFiles dl sig (k + 1) (getTifUrlsList u body)).1 :=
            (loopFiles_polled dl sig (getTifUrlsList u body) (k + 1)).2 (by simp [hf])
          have hr := ih (loopFiles dl sig (k + 1) (getTifUrlsList u body)).2.1
          constructor
          · intro h
            obtain ⟨o, ho, htr⟩ := hr.1 h
            refine ⟨Event.poll false :: Event.fetchSub u true ::
              ((loopFiles dl sig (k + 1) (getTifUrlsList u body)).1 ++ o),
              PolledOpen.fetch _ _ _ (polledOpen_append hfo ho), ?_⟩
            simp [htr]
          · intro h
            exact PolledOpen.fetch _ _ _ (polledOpen_append hfo (hr.2 h))
        · have hstep : loopSubs fetch dl sig k (u :: rest)
              = (Event.poll false :: Event.fetchSub u true ::
                  (loopFiles dl sig (k + 1) (getTifUrlsList u body)).1,
                 (loopFiles dl sig (k + 1) (getTifUrlsList u body)).2.1,
                 (loopFiles dl sig (k + 1) (getTifUrlsList u body)).2.2) := by
            simp [loopSubs, hs, hu, hf]
          rw [hstep]
          constructor
          · intro h
            obtain ⟨o, ho, htr⟩ :=
              (loopFiles_polled dl sig (getTifUrlsList u body) (k + 1)).1 h
            exact ⟨Event.poll false :: Event.fetchSub u true :: o,
              PolledOpen.fetch _ _ _ ho, by simp [htr]⟩
          · intro h
            exact PolledOpen.fetch _ _ _
              ((loopFiles_polled dl sig (getTifUrlsList u body) (k + 1)).2 h)

theorem handle_polled (td : Str) (fetch : GoURL → Option Str) (cres : Str → CreateResult)
    (sig : Nat → Bool) (params : PageParam) :
    PolledOpen (handleModel td fetch cres sig params).2
    ∨ ∃ o, PolledOpen o
        ∧ (handleModel td fetch cres sig params).2 = o ++ [Event.poll true]
        ∧ (handleModel td fetch cres sig params).1 = JobOutcome.completed := by
  rcases hp : urlParse params.url with _ | base
  · left
    simp only [handleModel, hp]
    exact PolledOpen.nil
  · rcases hb : fetch base with _ | body
    · left
      simp only [handleModel, hp, hb]
      exact PolledOpen.nil
    · have hred : handleModel td fetch cres sig params
          = (if (loopSubs fetch (downloadModel td fetch cres) sig 0
                  (parseURLsList base body params.pageRanges)).2.2 = ExitKind.fatal
             then JobOutcome.died else JobOutcome.completed,
             (loopSubs fetch (downloadModel td fetch cres) sig 0
                (parseURLsList base body params.pageRanges)).1) := by
        simp [handleModel, hp, hb]
      by_cases hc : (loopSubs fetch (downloadModel td fetch cres) sig 0
          (parseURLsList base body params.pageRanges)).2.2 = ExitKind.cancelled
      · obtain ⟨o, ho, htr⟩ :=
          (loopSubs_polled fetch (downloadModel td fetch cres) sig
            (parseURLsList base body params.pageRanges) 0).1 hc
        right
        refine ⟨o, ho, ?_, ?_⟩
        · rw [hred]; exact htr
        · rw [hred]; simp [hc]
      · left
        rw [hred]
        exact (loopSubs_polled fetch (downloadModel td fetch cres) sig
          (parseURLsList base body params.pageRanges) 0).2 hc

theorem polledOpen_split_act {l : List Event} (h : PolledOpen l) :
    ∀ (l₁ l₂ : List Event) (e : Event), l = l₁ ++ e :: l₂ → (∀ b, e ≠ Event.poll b) →
      ∃ l₀, l₁ = l₀ ++ [Event.poll false] := by
  induction h with
  | nil =>
    intro l₁ l₂ e hl _
    exact absurd hl (by simp)
  | fetch u ok rest hrest ih =>
    intro l₁ l₂ e hl he
    cases l₁ with
    | nil =>
      simp only [List.nil_append] at hl
      injection hl with h1 _
      exact absurd h1.symm (he false)
    | cons x l₁' =>
      cases l₁' with
      | nil =>
        simp only [List.cons_append, List.nil_append] at hl
        injection hl with h1 h2
        subst h1
        exact ⟨[], rfl⟩
      | cons y l₁'' =>
        simp only [List.cons_append] at hl
        injection hl with h1 h2
        injection h2 with h3 h4
        obtain ⟨l₀, hl₀⟩ := ih l₁'' l₂ e h4 he
        subst h1; subst h3
        exact ⟨Event.poll false :: Event.fetchSub u ok :: l₀, by simp [hl₀]⟩
  | down u r rest hrest ih =>
    intro l₁ l₂ e hl he
    cases l₁ with
    | nil =>
      simp only [List.nil_append] at hl
      injection hl with h1 _
      exact absurd h1.symm (he false)
    | cons x l₁' =>
      cases l₁' with
      | nil =>
        simp only [List.cons_append, List.nil_append] at hl
        injection hl with h1 h2
        subst h1
        exact ⟨[], rfl⟩
      | cons y l₁'' =>
        simp only [List.cons_append] at hl
        injection hl with h1 h2
        injection h2 with h3 h4
        obtain ⟨l₀, hl₀⟩ := ih l₁'' l₂ e h4 he
        subst h1; subst h3
        exact ⟨Event.poll false :: Event.download u r :: l₀, by simp [hl₀]⟩

theorem no_poll_true_split {o l₁ l₂ : List Event}
    (hno : Event.poll true ∉ o)
    (h : o ++ [Event.poll true] = l₁ ++ Event.poll true :: l₂) :
    l₂ = [] := by
  induction o generalizing l₁ with
  | nil =>
    cases l₁ with
    | nil =>
      simp only [List.nil_append] at h
      injection h with _ h2
      exact h2.symm
    | cons x l₁' =>
      simp only [List.nil_append, List.cons_append] at h
      injection h with _ h2
      exact absurd h2.symm (by simp)
  | cons a o' ih =>
    have hno' : Event.poll true ∉ o' := fun hm => hno (List.mem_cons_of_mem a hm)
    have hna : a ≠ Event.poll true := fun hm => hno (hm ▸ List.mem_cons_self a o')
    cases l₁ with
    | nil =>
      simp only [List.cons_append, List.nil_append] at h
      injection h with h1 _
      exact absurd h1 hna
    | cons x l₁' =>
      simp only [List.cons_append] at h
      injection h with _ h2
      exact ih hno' h2

theorem polled_trace_act_split (td : Str) (fetch : GoURL → Option Str)
    (cres : Str → CreateResult) (sig : Nat → Bool) (params : PageParam)
    {l₁ l₂ : List Event} {e : Event}
    (heq : (handleModel td fetch cres sig params).2 = l₁ ++ e :: l₂)
    (he : ∀ b, e ≠ Event.poll b) :
    ∃ l₀, l₁ = l₀ ++ [Event.poll false] := by
  rcases handle_polled td fetch cres sig params with hopen | ⟨o, ho, htr, _⟩
  · exact polledOpen_split_act hopen l₁ l₂ e heq he
  · have heq2 : l₁ ++ e :: l₂ = o ++ [Event.poll true] := heq.symm.trans htr
    rcases List.append_eq_append_iff.1 heq2 with ⟨a', ha1, ha2⟩ | ⟨c', hc1, hc2⟩
    · cases a' with
      | nil => simp at ha2; exact absurd ha2.1 (he true)
      | cons z a'' =>
        injection ha2 with hz _
        subst hz
        exact polledOpen_split_act ho l₁ a'' e ha1 he
    · cases c' with
      | nil =>
        simp only [List.nil_append] at hc2
        injection hc2 with h1 _
        exact absurd h1.symm (he true)
      | cons z c'' =>
        injection hc2 with _ h2
        exact absurd h2.symm (by simp)

/-- C7: in every execution of `handle`, a trace position holding the
observed cancellation is the end of the trace and the job returns cleanly
(`completed`, i.e. a nil error), and every sub-page fetch and every download
in the trace is immediately preceded by a poll of the shared signal that
observed it inactive — so nothing new is started once cancellation is
observed, and polls sit exactly before fetches and downloads. -/
theorem cancellation_contract (td : Str) (fetch : GoURL → Option Str)
    (cres : Str → CreateResult) (sig : Nat → Bool) (params : PageParam) :
    (∀ l₁ l₂ : List Event,
        (handleModel td fetch cres sig params).2 = l₁ ++ Event.poll true :: l₂ →
        l₂ = [] ∧ (handleModel td fetch cres sig params).1 = JobOutcome.completed)
    ∧ (∀ (l₁ : List Event) (u : GoURL) (ok : Bool) (l₂ : List Event),
        (handleModel td fetch cres sig params).2 = l₁ ++ Event.fetchSub u ok :: l₂ →
        ∃ l₀, l₁ = l₀ ++ [Event.poll false])
    ∧ (∀ (l₁ : List Event) (u : GoURL) (r : DLResult) (l₂ : List Event),
        (handleModel td fetch cres sig params).2 = l₁ ++ Event.download u r :: l₂ →
        ∃ l₀, l₁ = l₀ ++ [Event.poll false]) := by
  refine ⟨?_, ?_, ?_⟩
  · intro l₁ l₂ heq
    rcases handle_polled td fetch cres sig params with hopen | ⟨o, ho, htr, hout⟩
    · have hmem : Event.poll true ∈ (handleModel td fetch cres sig params).2 := by
        rw [heq]; exact List.mem_append_right l₁ (List.mem_cons_self _ _)
      exact absurd hmem (polledOpen_no_poll_true hopen)
    · exact ⟨no_poll_true_split (polledOpen_no_poll_true ho) (htr.symm.trans heq), hout⟩
  · intro l₁ u ok l₂ heq
    exact polled_trace_act_split td fetch cres sig params heq
      (fun b h => Event.noConfusion h)
  · intro l₁ u r l₂ heq
    exact polled_trace_act_split td fetch cres sig params heq
      (fun b h => Event.noConfusion h)

/-- Witness for C7: with the signal active from the start the trace is just
the observed poll and the job completes cleanly; with it inactive, the
download's preceding events end with a poll that observed `false`. -/
theorem cancellation_contract_witness :
    (([] : List Event) = []
      ∧ (handleModel wTD w7Fetch wCresOk sigOn w1JobA).1 = JobOutcome.completed)
    ∧ ∃ l₀, [Event.poll false, Event.fetchSub w1Sub true, Event.poll false]
        = l₀ ++ [Event.poll false] :=
  ⟨(cancellation_contract wTD w7Fetch wCresOk sigOn w1JobA).1 [] [] (by decide),
   (cancellation_contract wTD w7Fetch wCresOk sigOff w1JobA).2.2
     [Event.poll false, Event.fetchSub w1Sub true, Event.poll false]
     w1Tif DLResult.ok [] (by decide)⟩

theorem loopFiles_no_fatal (dl : GoURL → DLResult) (sig : Nat → Bool)
    (hsig : ∀ k, sig k = false) :
    ∀ (fs : List GoURL) (k : Nat), (∀ f ∈ fs, dl f ≠ DLResult.fatal) →
      (loopFiles dl sig k fs).2.2 = ExitKind.normal
      ∧ (loopFiles dl sig k fs).1.filterMap subAttempt = [] := by
  intro fs
  induction fs with
  | nil => intro k _; exact ⟨rfl, rfl⟩
  | cons f rest ih =>
    intro k hf
    have hdl : dl f ≠ DLResult.fatal := hf f (List.mem_cons_self f rest)
    have hrest := ih (k + 1) (fun g hg => hf g (List.mem_cons_of_mem f hg))
    have hstep : loopFiles dl sig k (f :: rest)
        = (Event.poll false :: Event.download f (dl f) :: (loopFiles dl sig (k + 1) rest).1,
           (loopFiles dl sig (k + 1) rest).2.1, (loopFiles dl sig (k + 1) rest).2.2) := by
      simp [loopFiles, hsig k, hdl]
    rw [hstep]
    exact ⟨hrest.1, by simp [List.filterMap_cons, subAttempt, hrest.2]⟩

theorem loopSubs_attempts (fetch : GoURL → Option Str) (dl : GoURL → DLResult)
    (sig : Nat → Bool) (hsig : ∀ k, sig k = false)
    (hnf : ∀ (u : GoURL) (b : Str) (f : GoURL), fetch u = some b →
        f ∈ getTifUrlsList u b → dl f ≠ DLResult.fatal) :
    ∀ (subs : List GoURL) (k : Nat),
      (loopSubs fetch dl sig k subs).2.2 = ExitKind.normal
      ∧ (loopSubs fetch dl sig k subs).1.filterMap subAttempt = subs := by
  intro subs
  induction subs with
  | nil => intro k; exact ⟨rfl, rfl⟩
  | cons u rest ih =>
    intro k
    rcases hu : fetch u with _ | body
    · have hstep : loopSubs fetch dl sig k (u :: rest)
          = (Event.poll false :: Event.fetchSub u false ::
              (loopSubs fetch dl sig (k + 1) rest).1,
             (loopSubs fetch dl sig (k + 1) rest).2.1,
             (loopSubs fetch dl sig (k + 1) rest).2.2) := by
        simp [loopSubs, hsig k, hu]
      rw [hstep]
      have hr := ih (k + 1)
      exact ⟨hr.1, by simp [List.filterMap_cons, subAttempt, hr.2]⟩
    · have hfiles := loopFiles_no_fatal dl sig hsig (getTifUrlsList u body) (k + 1)
        (fun f hf => hnf u body f hu hf)
      have hstep : loopSubs fetch dl sig k (u :: rest)
          = (Event.poll false :: Event.fetchSub u true ::
              ((loopFiles dl sig (k + 1) (getTifUrlsList u body)).1
                ++ (loopSubs fetch dl sig
                      (loopFiles dl sig (k + 1) (getTifUrlsList u body)).2.1 rest).1),
             (loopSubs fetch dl sig
                (loopFiles dl sig (k + 1) (getTifUrlsList u body)).2.1 rest).2.1,
             (loopSubs fetch dl sig
                (loopFiles dl sig (k + 1) (getTifUrlsList u body)).2.1 rest).2.2) := by
        simp [loopSubs, hsig k, hu, hfiles.1]
      rw [hstep]
      have hr := ih (loopFiles dl sig (k + 1) (getTifUrlsList u body)).2.1
      refine ⟨hr.1, ?_⟩
      simp [List.filterMap_cons, List.filterMap_append, subAttempt, hfiles.2, hr.2]

/-- C9: with the signal inactive, whenever the root URL parses and the root
fetch succeeds, the job completes (sub-page fetch failures are non-fatal)
and the sub-pages it attempts to fetch are exactly the discovered ones, in
order — a failed sub-page fetch is skipped and does not cut the rest short.
(`hnf` excludes the separate `log.Fatalf` download bug, C1.) -/
theorem subpage_failure_isolated (td : Str) (fetch : GoURL → Option Str)
    (cres : Str → CreateResult) (params : PageParam) (base : GoURL) (body : Str)
    (hparse : urlParse params.url = some base)
    (hroot : fetch base = some body)
    (hnf : ∀ (u : GoURL) (b : Str) (f : GoURL), fetch u = some b →
        f ∈ getTifUrlsList u b → downloadModel td fetch cres f ≠ DLResult.fatal) :
    (handleModel td fetch cres (fun _ => false) params).1 = JobOutcome.completed
    ∧ (handleModel td fetch cres (fun _ => false) params).2.filterMap subAttempt
        = parseURLsList base body params.pageRanges := by
  have h := loopSubs_attempts fetch (downloadModel td fetch cres) (fun _ => false)
    (fun _ => rfl) hnf (parseURLsList base body params.pageRanges) 0
  have hred : handleModel td fetch cres (fun _ => false) params
      = (if (loopSubs fetch (downloadModel td fetch cres) (fun _ => false) 0
              (parseURLsList base body params.pageRanges)).2.2 = ExitKind.fatal
         then JobOutcome.died else JobOutcome.completed,
         (loopSubs fetch (downloadModel td fetch cres) (fun _ => false) 0
            (parseURLsList base body params.pageRanges)).1) := by
    simp [handleModel, hparse, hroot]
  rw [hred]
  exact ⟨by simp [h.1], h.2⟩

/-- Witness for C9: of two discovered sub-pages the first one's fetch fails,
yet both are attempted and the job completes. -/
theorem subpage_failure_isolated_witness :
    (handleModel wTD w9Fetch wCresOk (fun _ => false) w9Job).1 = JobOutcome.completed
    ∧ (handleModel wTD w9Fetch wCresOk (fun _ => false) w9Job).2.filterMap subAttempt
        = parseURLsList w1BaseA w9Body w9Job.pageRanges := by
  have hnf : ∀ (u : GoURL) (b : Str) (f : GoURL), w9Fetch u = some b →
      f ∈ getTifUrlsList u b → downloadModel wTD w9Fetch wCresOk f ≠ DLResult.fatal := by
    intro u b f hu hf
    have hb : b = w9Body ∨ b = [] := by
      unfold w9Fetch at hu
      split at hu
      · exact Or.inl (Option.some.inj hu).symm
      · split at hu
        · exact absurd hu (by simp)
        · split at hu
          · exact Or.inr (Option.some.inj hu).symm
          · exact absurd hu (by simp)
    have hempty : getTifUrlsList u b = [] := by
      rcases hb with rfl | rfl
      · have h0 : tifCapturesGo w9Body = [] := by decide
        simp [getTifUrlsList, h0]
      · simp [getTifUrlsList, tifCapturesGo, tifCapturesFuel]
    rw [hempty] at hf
    exact absurd hf (List.not_mem_nil f)
  exact subpage_failure_isolated wTD w9Fetch wCresOk w9Job w1BaseA w9Body
    (by decide) (by decide) hnf

end Isric
